import Mathlib

/-!
Verification of the llm-workspace sandbox library.

Shallow embedding of the core components of the source code:
* `isBinaryFile` — src/utils/binary.ts content classifier
* `run_shell_cmd`, `set_env_var` — src/tools/shell.ts
* `httpRequest` — src/tools/network.ts policy gate
* `mkWorkspace` — src/workspace.ts environment construction
* `validatePath` — src/utils/path-guard.ts containment check
* `replaceInFile` — src/tools/editor.ts surgical edit
* `toStrict` — src/adapters.ts strict-schema transform

The theorems at the end of the file settle the spec claims about these
components.
-/

/-! ## Content classifier (src/utils/binary.ts)

The file is modelled as `Option (List Nat)`: `none` is an I/O failure while
opening or reading, `some bytes` the file's byte content.  `fileHandle.read`
with a 1024-byte buffer reads `min 1024 length` bytes.
-/

/-- The scan loop `for (let i = 0; i < bytesRead; i++) if (buffer[i] === 0)`. -/
def hasNullByte : List Nat → Bool
  | [] => false
  | b :: rest => if b = 0 then true else hasNullByte rest

/-- `isBinaryFile` from src/utils/binary.ts: sample the first 1024 bytes;
an empty read yields `false`; a null byte in the sample yields `true`;
an I/O failure yields `false`. -/
def isBinaryFile : Option (List Nat) → Bool
  | Option.none => false
  | Option.some bytes =>
    let sample := bytes.take 1024
    if sample = [] then false else hasNullByte sample

/-! ## Shell tool (src/tools/shell.ts)

The subprocess boundary (`execa` with `reject: false`) is modelled as an
oracle outcome: either the promise resolves with captured output and an
exit code (possibly `undefined`, modelled `Option.none`), or it throws a
spawn-level error (missing executable, timeout).
-/

/-- Outcome of the `await execa(...)` call as seen by the handler. -/
inductive ExecaOutcome where
  | resolved (stdout stderr : String) (exitCode : Option Int)
  | thrown (message : String)
  deriving DecidableEq

/-- The `ShellOutput` result shape.  The success branch of the handler
returns no `error` key, modelled as `error = Option.none`. -/
structure ShellOutput where
  stdout : String
  stderr : String
  exitCode : Option Int
  error : Option String
  deriving DecidableEq

/-- `run_shell_cmd` handler from src/tools/shell.ts: on a resolved call it
returns `{stdout, stderr, exitCode ?? null}`; on a thrown spawn error it
returns `{error, stdout: '', stderr: '', exitCode: -1}`.  The function is
total: every outcome produces a `ShellOutput` value. -/
def run_shell_cmd : ExecaOutcome → ShellOutput
  | .resolved out err code => ⟨out, err, code, Option.none⟩
  | .thrown msg => ⟨"", "", Option.some (-1), Option.some msg⟩

/-! ## Environment map (src/workspace.ts, src/tools/shell.ts)

A JavaScript plain object used as a string map is modelled as an
association list with insert-or-overwrite assignment, preserving key
insertion order exactly as JS objects do.
-/

/-- `obj[k] = v` on a JS object: overwrite in place or append. -/
def objSet : List (String × String) → String → String → List (String × String)
  | [], k, v => [(k, v)]
  | (k', v') :: rest, k, v =>
    if k' = k then (k, v) :: rest else (k', v') :: objSet rest k v

/-- `obj[k]` read on a JS object (`undefined` is `Option.none`). -/
def objGet (env : List (String × String)) (k : String) : Option String :=
  (env.find? (fun p => p.1 = k)).map (fun p => p.2)

/-- A `Workspace` instance: the fixed root and the persistent mutable
environment map created in the constructor and shared by reference with
the shell tools. -/
structure Workspace where
  root : String
  envVars : List (String × String)

/-- The constructor's environment seeding:
`{ PATH: process.env.PATH || '', ...process.env }` — a copy of the host
environment spread over a `PATH` default. -/
def mkWorkspace (hostEnv : List (String × String)) (rootDir : String) : Workspace :=
  { root := rootDir
    envVars := hostEnv.foldl (fun acc p => objSet acc p.1 p.2)
      [("PATH", (objGet hostEnv "PATH").getD "")] }

/-- `set_env_var` handler: `envVars[key] = value` on the shared map. -/
def set_env_var (w : Workspace) (key value : String) : Workspace :=
  { w with envVars := objSet w.envVars key value }

/-- The environment a later `run_shell_cmd` call passes to the subprocess
(`env: envVars` reads the current shared map). -/
def shellEnv (w : Workspace) : List (String × String) :=
  w.envVars

/-! ## Outbound-request policy gate (src/tools/network.ts)

`http_request` parses the URL, then runs the domain security check, and
only afterwards performs the `fetch`.  The outcome type records whether
control reaches the network call. -/

/-- Result of the policy gate: either the handler throws the security
violation before any network I/O, or it proceeds to `fetch`. -/
inductive HttpOutcome where
  | policyViolation (hostname : String)
  | performFetch
  deriving DecidableEq

/-- The domain security check of `http_request`:
`if (allowedDomains && allowedDomains.length > 0)` then reject hostnames
not in the list, otherwise fall through to the network call. -/
def httpRequest (allowedDomains : Option (List String)) (hostname : String) :
    HttpOutcome :=
  match allowedDomains with
  | Option.some l =>
    if l.length > 0 ∧ ¬ l.contains hostname then .policyViolation hostname
    else .performFetch
  | Option.none => .performFetch

/-! ## Surgical edit tool (src/tools/editor.ts)

File content and the search and replacement texts are modelled as
`List Char`.  Single-pass global regex replacement (`/\r\n/g` → `"\n"`,
`/\n/g` → `"\r\n"`), `String.indexOf`, `String.lastIndexOf` and
single-occurrence `String.replace` — including the `GetSubstitution`
processing of dollar patterns that the JS builtin applies to the
replacement string even for a string search pattern — are given their
exact JS semantics. -/

/-- `content.replace(/\r\n/g, '\n')`: single left-to-right pass replacing
each non-overlapping CRLF pair by LF. -/
def normalizeEol : List Char → List Char
  | [] => []
  | [c] => [c]
  | c1 :: c2 :: rest =>
    if c1 = '\r' ∧ c2 = '\n' then '\n' :: normalizeEol rest
    else c1 :: normalizeEol (c2 :: rest)

/-- `content.replace(/\n/g, '\r\n')`: replace every LF by CRLF. -/
def toCRLF : List Char → List Char
  | [] => []
  | c :: rest => if c = '\n' then '\r' :: '\n' :: toCRLF rest else c :: toCRLF rest

/-- `content.includes('\r\n')`. -/
def hasCRLF : List Char → Bool
  | [] => false
  | [_] => false
  | c1 :: c2 :: rest => (c1 = '\r' ∧ c2 = '\n') ∨ hasCRLF (c2 :: rest)

/-- `pat` is an initial run of `s`. -/
def startsList : List Char → List Char → Bool
  | [], _ => true
  | _ :: _, [] => false
  | p :: ps, c :: cs => p = c ∧ startsList ps cs

/-- All character indices of `s` at which `pat` occurs (ascending). -/
def occList (pat s : List Char) : List Nat :=
  (List.range (s.length + 1)).filter (fun i => startsList pat (s.drop i))

/-- JS `s.indexOf(pat)`: least occurrence index (`-1` is `Option.none`). -/
def firstIdx (pat s : List Char) : Option Nat :=
  (occList pat s).head?

/-- JS `s.lastIndexOf(pat)`: greatest occurrence index. -/
def lastIdx (pat s : List Char) : Option Nat :=
  (occList pat s).getLast?

/-- Number of occurrences of `pat` in `s` (at distinct start indices). -/
def countOccs (pat s : List Char) : Nat :=
  (occList pat s).length

/-- ECMA-262 `GetSubstitution` as it applies to a *string* search pattern
(no capture groups): scanning the replacement left to right, `$$` emits a
dollar, `$&` the matched text, a dollar followed by the backquote
character (U+0060) the text before the match, a dollar followed by the
single quote (U+0027) the text after the match; any other dollar —
including `$1`…`$9` and `$<name>`, which have no captures to refer to with
a string pattern — is emitted literally and scanning continues with the
next character. -/
def getSubstitution (matched before after : List Char) : List Char → List Char
  | [] => []
  | c :: rest =>
    if c = '$' then
      match rest with
      | [] => ['$']
      | c2 :: r2 =>
        if c2 = '$' then '$' :: getSubstitution matched before after r2
        else if c2 = '&' then
          matched ++ getSubstitution matched before after r2
        else if c2 = Char.ofNat 96 then
          before ++ getSubstitution matched before after r2
        else if c2 = Char.ofNat 39 then
          after ++ getSubstitution matched before after r2
        else '$' :: getSubstitution matched before after (c2 :: r2)
    else c :: getSubstitution matched before after rest

/-- JS `s.replace(pat, repl)` with string arguments: find the first
occurrence of `pat` only, run `GetSubstitution` over the replacement
text, and splice the result in; return `s` unchanged when there is no
occurrence. -/
def replaceFirst (s pat repl : List Char) : List Char :=
  match firstIdx pat s with
  | Option.none => s
  | Option.some i =>
    s.take i ++
      getSubstitution pat (s.take i) (s.drop (i + pat.length)) repl ++
      s.drop (i + pat.length)

/-- The `replace_in_file` handler body from src/tools/editor.ts, after the
binary guard and the file read: detect the dominant style
(`isCRLF = content.includes('\r\n')`), normalize file and search text,
fail when the search text is absent or ambiguous, otherwise replace the
unique occurrence and restore CRLF endings globally when the original
content contained a CRLF.  `Except.error` models the thrown `Error`
(the file is written only on the `Except.ok` path). -/
def replaceInFile (content old_content new_content : List Char) :
    Except String (List Char) :=
  let isCRLF := hasCRLF content
  let fileNormalized := normalizeEol content
  let searchNormalized := normalizeEol old_content
  match firstIdx searchNormalized fileNormalized with
  | Option.none => Except.error "Target string not found"
  | Option.some first =>
    if lastIdx searchNormalized fileNormalized ≠ Option.some first then
      Except.error "Ambiguous match"
    else
      let newContentNormalized := normalizeEol new_content
      let updatedNormalized :=
        replaceFirst fileNormalized searchNormalized newContentNormalized
      Except.ok (if isCRLF then toCRLF updatedNormalized else updatedNormalized)

/-- The file content on disk after a `replace_in_file` call: the handler
throws before `fs.writeFile` on every error path, so the content is
unchanged unless the edit succeeded. -/
def editApply (content old_content new_content : List Char) : List Char :=
  match replaceInFile content old_content new_content with
  | Except.ok written => written
  | Except.error _ => content

/-- Every line feed in the list is the second half of a CRLF pair. -/
def crlfOnly : List Char → Bool
  | [] => true
  | [c] => c ≠ '\n'
  | c1 :: c2 :: rest =>
    if c1 = '\r' ∧ c2 = '\n' then crlfOnly rest
    else if c1 = '\n' then false
    else crlfOnly (c2 :: rest)

/-! ## Path containment (src/utils/path-guard.ts)

POSIX paths are modelled at the segment level: a path string is a
`List Char`, a parsed path a `List Seg` of slash-free segments.  The
workspace root (`path.resolve(rootDir)` in the constructor) is taken as an
already-normalized absolute segment list satisfying `rootOK`. -/

/-- A path segment. -/
abbrev Seg := List Char

/-- A segment of a normalized absolute path: non-empty, not `.` or `..`,
and containing no slash. -/
def goodSeg (s : Seg) : Bool :=
  ¬ s = [] ∧ ¬ s = ['.'] ∧ ¬ s = ['.', '.'] ∧ ¬ s.contains '/'

/-- The root produced by `path.resolve(rootDir)` is absolute and
normalized: every segment is plain. -/
def rootOK (root : List Seg) : Bool :=
  root.all goodSeg

/-- Split a path string at every slash (Node splits on `/` separators;
empty segments are later discarded by normalization). -/
def splitSlash : List Char → List Seg
  | [] => [[]]
  | c :: rest =>
    if c = '/' then [] :: splitSlash rest
    else
      match splitSlash rest with
      | [] => [[c]]
      | s :: ss => (c :: s) :: ss

/-- The segment loop of Node's `normalizeString` for an absolute path:
skip empty and `.` segments, pop on `..` (dropping `..` at the root). -/
def normGo : List Seg → List Seg → List Seg
  | acc, [] => acc
  | acc, s :: rest =>
    if s = [] ∨ s = ['.'] then normGo acc rest
    else if s = ['.', '.'] then normGo acc.dropLast rest
    else normGo (acc ++ [s]) rest

/-- Normalize a segment list of an absolute path. -/
def normSegs (l : List Seg) : List Seg :=
  normGo [] l

/-- `path.isAbsolute` on POSIX: the string starts with a slash. -/
def isAbsStr (cs : List Char) : Bool :=
  cs.head? = Option.some '/'

/-- `path.resolve(root, candidate)`: an absolute candidate is normalized on
its own, a relative one is appended to the root and normalized. -/
def resolveP (root : List Seg) (cand : List Char) : List Seg :=
  if isAbsStr cand then normSegs (splitSlash cand)
  else normSegs (root ++ splitSlash cand)

/-- Length of the longest common segment run of two paths. -/
def cpl : List Seg → List Seg → Nat
  | [], _ => 0
  | _, [] => 0
  | a :: as_, b :: bs =>
    if a = b then cpl as_ bs + 1 else 0

/-- `path.relative(from, to)` on normalized absolute paths, at segment
level: one `..` per remaining `from` segment, then the remaining `to`
segments. -/
def relSegs (f t : List Seg) : List Seg :=
  List.replicate (f.length - cpl f t) ['.', '.'] ++ t.drop (cpl f t)

/-- Join segments with `/` separators. -/
def joinSegs : List Seg → List Char
  | [] => []
  | [s] => s
  | s :: rest => s ++ '/' :: joinSegs rest

/-- `PathGuard.validatePath` from src/utils/path-guard.ts: resolve the
candidate against the root, compute the relative path from the root, and
accept iff the relative string is empty or neither starts with the two
characters `..` nor is absolute.  `Except.error` models the thrown
security-violation `Error`. -/
def validatePath (root : List Seg) (cand : List Char) :
    Except String (List Seg) :=
  let resolvedPath := resolveP root cand
  let relative := joinSegs (relSegs root resolvedPath)
  let isSafe : Bool :=
    relative.isEmpty ||
      (!startsList ['.', '.'] relative && !isAbsStr relative)
  if isSafe then Except.ok resolvedPath
  else Except.error "Security Violation: Access denied"

/-- Whether a `validatePath` call accepted the candidate. -/
def vOk : Except String (List Seg) → Bool
  | Except.ok _ => true
  | Except.error _ => false

/-! ## Strict-schema transform (src/adapters.ts)

The JSON-Schema value produced by `zodToJsonSchema` is modelled as a
closed tree: a node carries the fields that `toStrictSchema` inspects
(`type`, `properties`, `required`, `items`, `anyOf`,
`additionalProperties`) plus the list of its other keys (`extra`), on
which only deletion acts.  Absent fields are explicit (`OptProps.none` is
an absent `properties` key, `OptProps.some PropList.nil` the present empty
object `{}`, which is truthy in JS). -/

/-- The `type` field: absent, a string, or an array of strings. -/
inductive TypeF where
  | tnone
  | tstr (s : String)
  | tlist (l : List String)
  deriving DecidableEq

mutual
inductive JSchema where
  | node (type : TypeF) (props : OptProps) (required : Option (List String))
      (items : OptSchema) (anyOf : OptSchemas) (addProps : Option Bool)
      (extra : List String)
inductive OptProps where
  | none
  | some (l : PropList)
inductive PropList where
  | nil
  | cons (k : String) (v : JSchema) (rest : PropList)
inductive OptSchema where
  | none
  | some (s : JSchema)
inductive OptSchemas where
  | none
  | some (l : SchemaList)
inductive SchemaList where
  | nil
  | cons (s : JSchema) (rest : SchemaList)
end

/-- The banned-keyword list of `sanitize`. -/
def BANNED : List String :=
  ["format", "pattern", "minLength", "maxLength", "default",
   "minItems", "maxItems", "uniqueItems"]

/-- The top-level keys deleted before the walk
(`delete jsonSchema.$schema; delete jsonSchema.definitions;
delete jsonSchema.default`). -/
def TOPJUNK : List String :=
  ["$schema", "definitions", "default"]

/-- `Object.keys` of a properties object. -/
def plKeys : PropList → List String
  | .nil => []
  | .cons k _ rest => k :: plKeys rest

/-- `Object.keys(schema.properties || {})`. -/
def keysOf : OptProps → List String
  | .none => []
  | .some pl => plKeys pl

/-- JS truthiness of `schema.properties` (a present object, even `{}`). -/
def isSomeProps : OptProps → Bool
  | .none => false
  | .some _ => true

/-- JS truthiness of `schema.items`. -/
def isSomeSchema : OptSchema → Bool
  | .none => false
  | .some _ => true

/-- JS truthiness of `schema.anyOf` (a present array, even `[]`). -/
def isSomeSchemas : OptSchemas → Bool
  | .none => false
  | .some _ => true

/-- `anyOf.push(x)`. -/
def schemasAppend : SchemaList → JSchema → SchemaList
  | .nil, x => .cons x .nil
  | .cons s rest, x => .cons s (schemasAppend rest x)

/-- The `{ type: 'null' }` variant pushed onto a union. -/
def nullVariant : JSchema :=
  .node (.tstr "null") .none Option.none .none .none Option.none []

/-- The widening step of `fixOptionality` on a previously-optional
property: an array `type` gains `'null'` when missing, a string `type`
becomes the two-element list, and a node with no `type` but an `anyOf`
gains a null-typed variant. -/
def widen : JSchema → JSchema
  | .node (.tlist l) p r i a ap e =>
    if l.contains "null" then .node (.tlist l) p r i a ap e
    else .node (.tlist (l ++ ["null"])) p r i a ap e
  | .node (.tstr s) p r i a ap e => .node (.tlist [s, "null"]) p r i a ap e
  | .node .tnone p r i a ap e =>
    match a with
    | .some al => .node .tnone p r i (.some (schemasAppend al nullVariant)) ap e
    | .none => .node .tnone p r i .none ap e

mutual
/-- First pass of `toStrictSchema` (`sanitize` in src/adapters.ts): delete
banned keywords everywhere it walks; on an object node force
`additionalProperties: false`, overwrite `required` with the full key
set and recurse into every property; on an array node recurse into
`items`; otherwise recurse into the `anyOf` variants when present. -/
def sanitize : JSchema → JSchema
  | .node t p r i a ap e =>
    let e2 := e.filter (fun k => ¬ BANNED.contains k)
    if t = .tstr "object" then
      .node t (sanitizeOptProps p) (Option.some (keysOf p)) i a (Option.some false) e2
    else if t = .tstr "array" then
      .node t p r (sanitizeItems i) a ap e2
    else if isSomeSchemas a then
      .node t p r i (sanitizeAnyOf a) ap e2
    else
      .node t p r i a ap e2
def sanitizeOptProps : OptProps → OptProps
  | .none => .none
  | .some pl => .some (sanitizeProps pl)
def sanitizeProps : PropList → PropList
  | .nil => .nil
  | .cons k v rest => .cons k (sanitize v) (sanitizeProps rest)
def sanitizeItems : OptSchema → OptSchema
  | .none => .none
  | .some x => .some (sanitize x)
def sanitizeAnyOf : OptSchemas → OptSchemas
  | .none => .none
  | .some l => .some (sanitizeList l)
def sanitizeList : SchemaList → SchemaList
  | .nil => .nil
  | .cons x rest => .cons (sanitize x) (sanitizeList rest)
end

mutual
/-- Size measure for the `fixOptionality` recursion: counts the
`properties` and `items` skeleton, the only fields that recursion
descends into, and ignores `type` and `anyOf`, the only fields `widen`
touches. -/
def msize : JSchema → Nat
  | .node _ p _ i _ _ _ => msizeOP p + msizeOI i + 1
def msizeOP : OptProps → Nat
  | .none => 0
  | .some pl => msizePL pl + 1
def msizePL : PropList → Nat
  | .nil => 0
  | .cons _ v rest => msize v + msizePL rest + 1
def msizeOI : OptSchema → Nat
  | .none => 0
  | .some x => msize x + 1
end

theorem msize_widen (v : JSchema) : msize (widen v) = msize v := by
  match v with
  | .node (.tlist l) p r i a ap e =>
    by_cases h : ("null" : String) ∈ l <;> simp [widen, h, msize]
  | .node (.tstr s) p r i a ap e => simp [widen, msize]
  | .node .tnone p r i a ap e =>
    match a with
    | .some al => simp [widen, msize]
    | .none => simp [widen, msize]

mutual
/-- Second pass of `toStrictSchema` (`fixOptionality` in src/adapters.ts):
on an object node with a `properties` object, record the incoming
`required`, overwrite `required` with the full key set, widen every key
absent from the incoming set, and recurse into each (possibly widened)
property; on an array node recurse into `items`. -/
def fixOpt : JSchema → JSchema
  | .node t p r i a ap e =>
    if t = .tstr "object" ∧ isSomeProps p then
      .node t (fixOptProps (r.getD []) p) (Option.some (keysOf p)) i a ap e
    else if t = .tstr "array" ∧ isSomeSchema i then
      .node t p r (fixItems i) a ap e
    else .node t p r i a ap e
  termination_by s => msize s
  decreasing_by
    all_goals simp only [msize]
    all_goals omega
def fixOptProps (existing : List String) : OptProps → OptProps
  | .none => .none
  | .some pl => .some (fixProps existing pl)
  termination_by p => msizeOP p
  decreasing_by
    simp only [msizeOP]
    omega
def fixProps (existing : List String) : PropList → PropList
  | .nil => .nil
  | .cons k v rest =>
    .cons k (fixOpt (if k ∈ existing then v else widen v))
      (fixProps existing rest)
  termination_by pl => msizePL pl
  decreasing_by
    all_goals first
      | (split <;> simp only [msize_widen, msizePL] <;> omega)
      | (simp only [msizePL]; omega)
def fixItems : OptSchema → OptSchema
  | .none => .none
  | .some x => .some (fixOpt x)
  termination_by i => msizeOI i
  decreasing_by
    simp only [msizeOI]
    omega
end

/-- The top-level cleanup before the walk. -/
def cleanupTop : JSchema → JSchema
  | .node t p r i a ap e =>
    .node t p r i a ap (e.filter (fun k => ¬ TOPJUNK.contains k))

/-- `toStrictSchema` on the JSON-Schema tree: top-level cleanup, the
`sanitize` pass, then the `fixOptionality` pass. -/
def toStrict (s : JSchema) : JSchema :=
  fixOpt (sanitize (cleanupTop s))

/-! ## Supporting lemmas -/

theorem hasNullByte_iff (l : List Nat) : hasNullByte l = true ↔ (0 : Nat) ∈ l := by
  induction l with
  | nil => simp [hasNullByte]
  | cons b rest ih =>
    by_cases h : b = 0 <;> simp [hasNullByte, h, ih, eq_comm]

theorem objGet_cons (k' v' : String) (rest : List (String × String))
    (k : String) :
    objGet ((k', v') :: rest) k =
      if k' = k then Option.some v' else objGet rest k := by
  by_cases h : k' = k
  · rw [objGet, List.find?_cons_of_pos _ (by simp [h]), if_pos h]
    rfl
  · rw [objGet, List.find?_cons_of_neg _ (by simp [h]), if_neg h]
    rfl

theorem objGet_objSet_self (env : List (String × String)) (k v : String) :
    objGet (objSet env k v) k = Option.some v := by
  induction env with
  | nil => simp [objSet, objGet_cons]
  | cons q rest ih =>
    obtain ⟨k', v'⟩ := q
    by_cases h : k' = k
    · simp [objSet, h, objGet_cons]
    · simp [objSet, h, objGet_cons, ih]

theorem objGet_objSet_ne (env : List (String × String)) (k k' v : String)
    (h : k' ≠ k) : objGet (objSet env k' v) k = objGet env k := by
  induction env with
  | nil => simp [objSet, objGet_cons, h, objGet]
  | cons q rest ih =>
    obtain ⟨k1, v1⟩ := q
    by_cases hq : k1 = k'
    · simp [objSet, hq, objGet_cons, h]
    · simp [objSet, hq, objGet_cons, ih]

theorem keys_ne_of_objGet_none (env : List (String × String)) (k : String)
    (h : objGet env k = Option.none) : ∀ p ∈ env, p.1 ≠ k := by
  induction env with
  | nil => simp
  | cons q rest ih =>
    obtain ⟨k1, v1⟩ := q
    rw [objGet_cons] at h
    by_cases hq : k1 = k
    · simp [hq] at h
    · intro p hp
      rcases List.mem_cons.mp hp with hp | hp
      · simpa [hp] using hq
      · exact ih (by simpa [hq] using h) p hp

theorem objGet_fold_none (entries : List (String × String))
    (acc : List (String × String)) (k : String)
    (hacc : objGet acc k = Option.none) (hent : ∀ p ∈ entries, p.1 ≠ k) :
    objGet (entries.foldl (fun acc p => objSet acc p.1 p.2) acc) k =
      Option.none := by
  induction entries generalizing acc with
  | nil => simpa using hacc
  | cons q rest ih =>
    have hq : q.1 ≠ k := hent q (by simp)
    refine ih (objSet acc q.1 q.2) ?_ (fun p hp => hent p (by simp [hp]))
    rw [objGet_objSet_ne _ _ _ _ hq, hacc]

/-! ## Claim C7: binary content classifier -/

/-- C7: the classifier samples at most the first 1024 bytes and returns
`true` iff a null byte occurs in that sample; an empty file and an I/O
failure during sampling both classify as text (`false`). -/
theorem binary_classifier_spec (bytes : List Nat) :
    (isBinaryFile (Option.some bytes) = true ↔ (0 : Nat) ∈ bytes.take 1024)
    ∧ isBinaryFile (Option.some bytes) = isBinaryFile (Option.some (bytes.take 1024))
    ∧ isBinaryFile Option.none = false
    ∧ isBinaryFile (Option.some ([] : List Nat)) = false := by
  refine ⟨?_, ?_, rfl, rfl⟩
  · by_cases h : bytes.take 1024 = []
    · simp [isBinaryFile, h]
    · simp [isBinaryFile, h, hasNullByte_iff]
  · simp [isBinaryFile, List.take_take]

/-! ## Claim C4: shell tool returns failure as data -/

/-- C4: a subprocess that runs to completion — any exit code, zero or not —
yields an ordinary `{stdout, stderr, exitCode}` value with no error field,
and a spawn-level failure (missing executable, timeout) is reported as an
explicit `error` field inside the same output shape; `run_shell_cmd` is a
total function, so no outcome raises. -/
theorem shell_failure_as_data (out err m : String) (code : Int) :
    run_shell_cmd (ExecaOutcome.resolved out err (Option.some code)) =
      ⟨out, err, Option.some code, Option.none⟩
    ∧ run_shell_cmd (ExecaOutcome.resolved out err Option.none) =
      ⟨out, err, Option.none, Option.none⟩
    ∧ run_shell_cmd (ExecaOutcome.thrown m) =
      ⟨"", "", Option.some (-1), Option.some m⟩ :=
  ⟨rfl, rfl, rfl⟩

/-! ## Claims C5 and C9: outbound-request allow-list -/

/-- C5 counterexample: with a configured but empty allow-list, the hostname
`evil.example` is absent from the list, yet the handler performs the
network request instead of returning the policy violation the claim
requires. -/
theorem allowlist_claim_counterexample :
    ¬ ("evil.example" ∈ ([] : List String))
    ∧ httpRequest (Option.some []) "evil.example" = HttpOutcome.performFetch
    ∧ httpRequest (Option.some []) "evil.example" ≠
        HttpOutcome.policyViolation "evil.example" :=
  ⟨by simp, rfl, by simp [httpRequest]⟩

/-- C5 amended: for every configured *non-empty* allow-list, the handler
returns the policy violation before any network I/O exactly when the
hostname is not a member of the list — membership is exact, with no
wildcard or suffix matching — and proceeds to the network call exactly on
listed hostnames. -/
theorem allowlist_exact_hostname (l : List String) (host : String) (h : l ≠ []) :
    (httpRequest (Option.some l) host = HttpOutcome.policyViolation host ↔
      ¬ host ∈ l)
    ∧ (host ∈ l → httpRequest (Option.some l) host = HttpOutcome.performFetch) := by
  have hlen : 0 < l.length := List.length_pos.mpr h
  by_cases hm : host ∈ l
  · simp [httpRequest, hm, hlen]
  · simp [httpRequest, hm, hlen]

theorem allowlist_exact_hostname_witness :
    (["api.example.com"] : List String) ≠ []
    ∧ ((httpRequest (Option.some ["api.example.com"]) "evil.example" =
        HttpOutcome.policyViolation "evil.example" ↔
          ¬ "evil.example" ∈ ["api.example.com"])
      ∧ ("evil.example" ∈ ["api.example.com"] →
        httpRequest (Option.some ["api.example.com"]) "evil.example" =
          HttpOutcome.performFetch)) :=
  ⟨List.cons_ne_nil _ _,
   allowlist_exact_hostname ["api.example.com"] "evil.example"
     (List.cons_ne_nil _ _)⟩

/-- C9: an allow-list configured as the empty array disables the hostname
check entirely — every request proceeds to network I/O, exactly as when no
allow-list is configured at all. -/
theorem empty_allowlist_unrestricted (host : String) :
    httpRequest (Option.some []) host = HttpOutcome.performFetch
    ∧ httpRequest (Option.some []) host = httpRequest Option.none host := by
  constructor <;> simp [httpRequest]

/-! ## Claim C6: persistent environment, per-Workspace isolation -/

/-- C6: a variable set through `set_env_var` is visible, through the shared
environment map, to every later shell invocation of the same `Workspace`
instance; a second `Workspace` instance — even one constructed over the
same root directory — seeds its own copy of the host environment and does
not see the variable. -/
theorem env_var_isolation (hostEnv : List (String × String))
    (r1 r2 k v : String) (hk : objGet hostEnv k = Option.none)
    (hpath : k ≠ "PATH") :
    objGet (shellEnv (set_env_var (mkWorkspace hostEnv r1) k v)) k =
      Option.some v
    ∧ objGet (shellEnv (mkWorkspace hostEnv r2)) k = Option.none := by
  constructor
  · exact objGet_objSet_self _ _ _
  · refine objGet_fold_none hostEnv _ k ?_ (keys_ne_of_objGet_none hostEnv k hk)
    have hpk : ("PATH" : String) ≠ k := fun h => hpath h.symm
    simp [objGet_cons, hpk, objGet]

theorem env_var_isolation_witness :
    objGet (shellEnv (set_env_var (mkWorkspace [] "/ws") "FOO" "bar")) "FOO" =
      Option.some "bar"
    ∧ objGet (shellEnv (mkWorkspace [] "/ws")) "FOO" = Option.none :=
  env_var_isolation [] "/ws" "/ws" "FOO" "bar" rfl (by decide)

/-! ## Occurrence-count lemmas for the edit tool -/

theorem occ_unique (pat s : List Char) (h : countOccs pat s = 1) :
    ∃ i, firstIdx pat s = Option.some i ∧ lastIdx pat s = Option.some i := by
  rw [countOccs] at h
  obtain ⟨i, hi⟩ := List.length_eq_one.mp h
  exact ⟨i, by rw [firstIdx, hi]; rfl, by rw [lastIdx, hi]; rfl⟩

theorem occ_ambiguous (pat s : List Char) (h : 2 ≤ countOccs pat s) (i : Nat)
    (hfi : firstIdx pat s = Option.some i) :
    lastIdx pat s ≠ Option.some i := by
  intro hlast
  have hnd : (occList pat s).Nodup := by
    rw [occList]; exact List.Nodup.filter _ (List.nodup_range _)
  cases hocc : occList pat s with
  | nil => rw [countOccs, hocc] at h; simp at h
  | cons a t =>
    cases ht : t with
    | nil =>
      rw [countOccs, hocc, ht] at h; simp at h
    | cons b t2 =>
      subst ht
      rw [firstIdx, hocc] at hfi
      simp only [List.head?_cons, Option.some.injEq] at hfi
      rw [lastIdx, hocc, List.getLast?_cons_cons] at hlast
      have hlast2 := List.getLast?_eq_getLast_of_ne_nil
        (l := b :: t2) (by simp)
      rw [hlast2, Option.some.injEq] at hlast
      have hmem : i ∈ b :: t2 := hlast ▸ List.getLast_mem _
      rw [hocc] at hnd
      exact (List.nodup_cons.mp hnd).1 (hfi ▸ hmem)

theorem replaceInFile_eq_ok (content old new : List Char)
    (h : countOccs (normalizeEol old) (normalizeEol content) = 1) :
    replaceInFile content old new = Except.ok
      (if hasCRLF content then
        toCRLF (replaceFirst (normalizeEol content) (normalizeEol old)
          (normalizeEol new))
      else
        replaceFirst (normalizeEol content) (normalizeEol old)
          (normalizeEol new)) := by
  obtain ⟨i, hf, hl⟩ := occ_unique _ _ h
  simp only [replaceInFile]
  rw [hf]
  simp [hl]

theorem replaceInFile_eq_error (content old new : List Char)
    (h : countOccs (normalizeEol old) (normalizeEol content) ≠ 1) :
    ∃ e, replaceInFile content old new = Except.error e := by
  rcases Nat.lt_or_ge (countOccs (normalizeEol old) (normalizeEol content)) 1
    with hlt | hge
  · have h0 : countOccs (normalizeEol old) (normalizeEol content) = 0 := by
      omega
    rw [countOccs] at h0
    have hnil := List.length_eq_zero.mp h0
    have hfn : firstIdx (normalizeEol old) (normalizeEol content) =
        Option.none := by
      rw [firstIdx, hnil]; rfl
    refine ⟨"Target string not found", ?_⟩
    simp only [replaceInFile]
    rw [hfn]
  · have h2 : 2 ≤ countOccs (normalizeEol old) (normalizeEol content) := by
      omega
    have hne : occList (normalizeEol old) (normalizeEol content) ≠ [] := by
      intro hh
      rw [countOccs, hh] at h2
      simp at h2
    obtain ⟨a, t, hocc⟩ := List.exists_cons_of_ne_nil hne
    have hf : firstIdx (normalizeEol old) (normalizeEol content) =
        Option.some a := by
      rw [firstIdx, hocc]; rfl
    have hl := occ_ambiguous _ _ h2 a hf
    refine ⟨"Ambiguous match", ?_⟩
    simp only [replaceInFile]
    rw [hf]
    simp [hl]

/-! ## Line-ending restoration lemmas -/

theorem toCRLF_head_ne (l : List Char) :
    (toCRLF l).head? ≠ Option.some '\n' := by
  cases l with
  | nil => simp [toCRLF]
  | cons c rest =>
    by_cases h : c = '\n' <;> simp [toCRLF, h]

theorem crlfOnly_toCRLF (l : List Char) : crlfOnly (toCRLF l) = true := by
  induction l with
  | nil => rfl
  | cons c rest ih =>
    by_cases h : c = '\n'
    · simp [toCRLF, h, crlfOnly, ih]
    · rw [toCRLF, if_neg h]
      cases hX : toCRLF rest with
      | nil => simp [crlfOnly, h]
      | cons x xs =>
        have hx : x ≠ '\n' := by
          have hh := toCRLF_head_ne rest
          rw [hX] at hh
          simpa using hh
        have ih2 : crlfOnly (x :: xs) = true := hX ▸ ih
        simp [crlfOnly, h, hx, ih2]

/-- Sanity check of the dollar-substitution semantics: `$$` collapses to a
single dollar and `$&` re-inserts the matched text, both in `replaceFirst`
alone and through `replace_in_file`. -/
theorem replaceFirst_dollar_examples :
    replaceFirst ['a', 'X', 'b'] ['X'] ['$', '$', 'P'] = ['a', '$', 'P', 'b']
    ∧ replaceFirst ['a', 'X', 'b'] ['X'] ['$', '&', '!'] = ['a', 'X', '!', 'b']
    ∧ replaceInFile ['a', 'X', 'b'] ['X'] ['$', '$', 'P'] =
        Except.ok ['a', '$', 'P', 'b'] :=
  ⟨by rfl, by rfl, by rfl⟩

/-! ## Claim C3: surgical edit match discipline -/

/-- C3 counterexample: the content `a<CR>Xb` contains the search text `X`
exactly once and has no CRLF, so its line-ending style is LF/none; the
edit succeeds, but the replacement `<LF>z` lands directly after the bare
CR and the written file contains a CRLF — the original line-ending style
is not preserved on write. -/
theorem edit_style_counterexample :
    countOccs (normalizeEol ['X']) (normalizeEol ['a', '\r', 'X', 'b']) = 1
    ∧ replaceInFile ['a', '\r', 'X', 'b'] ['X'] ['\n', 'z'] =
        Except.ok ['a', '\r', '\n', 'z', 'b']
    ∧ hasCRLF ['a', '\r', 'X', 'b'] = false
    ∧ hasCRLF ['a', '\r', '\n', 'z', 'b'] = true :=
  ⟨by decide, by rfl, by decide, by decide⟩

/-- C3 amended: when the normalized content contains the normalized search
text exactly once, the edit succeeds; if the original content contained a
CRLF, every line feed in the written content is part of a CRLF pair; if it
contained no CRLF, the written content is exactly the normalized content
with the unique occurrence replaced by the normalized replacement text as
rewritten by JS dollar-substitution (so a CRLF can appear only when that
replacement processing introduces one).  With zero or two-or-more
occurrences the edit fails and the file content is left unmodified. -/
theorem edit_match_discipline (content old new : List Char) :
    (countOccs (normalizeEol old) (normalizeEol content) = 1 →
      ∃ written, replaceInFile content old new = Except.ok written
        ∧ (hasCRLF content = true → crlfOnly written = true)
        ∧ (hasCRLF content = false →
            written = replaceFirst (normalizeEol content) (normalizeEol old)
              (normalizeEol new)))
    ∧ (countOccs (normalizeEol old) (normalizeEol content) ≠ 1 →
      ∃ e, replaceInFile content old new = Except.error e
        ∧ editApply content old new = content) := by
  constructor
  · intro h
    rw [replaceInFile_eq_ok content old new h]
    refine ⟨_, rfl, ?_, ?_⟩
    · intro hc
      rw [if_pos hc]
      exact crlfOnly_toCRLF _
    · intro hc
      rw [hc]
      simp
  · intro h
    obtain ⟨e, he⟩ := replaceInFile_eq_error content old new h
    exact ⟨e, he, by rw [editApply, he]⟩

theorem edit_match_discipline_witness :
    countOccs (normalizeEol ['b']) (normalizeEol ['a', '\r', '\n', 'b']) = 1
    ∧ ∃ written,
        replaceInFile ['a', '\r', '\n', 'b'] ['b'] ['c'] = Except.ok written
        ∧ (hasCRLF ['a', '\r', '\n', 'b'] = true → crlfOnly written = true)
        ∧ (hasCRLF ['a', '\r', '\n', 'b'] = false →
            written = replaceFirst (normalizeEol ['a', '\r', '\n', 'b'])
              (normalizeEol ['b']) (normalizeEol ['c'])) :=
  ⟨by decide, (edit_match_discipline ['a', '\r', '\n', 'b'] ['b'] ['c']).1
    (by decide)⟩

/-! ## Claim C10: dominant-style restoration rewrites the whole file -/

/-- C10: when the content contains at least one CRLF, a successful
`replace_in_file` writes the normalized-and-replaced text (replacement
processed by JS dollar-substitution, as `replaceFirst` models) with
*every* line feed globally rewritten to CRLF — dominant-style detection
is a single containment test and restoration replaces every LF — so line
endings outside the replaced region are rewritten too (the witness
exhibits a mixed-endings file whose untouched LF line ending comes back
as CRLF). -/
theorem crlf_global_rewrite (content old new written : List Char)
    (hc : hasCRLF content = true)
    (hok : replaceInFile content old new = Except.ok written) :
    written = toCRLF (replaceFirst (normalizeEol content) (normalizeEol old)
        (normalizeEol new))
    ∧ crlfOnly written = true := by
  simp only [replaceInFile] at hok
  split at hok
  · simp at hok
  · split at hok
    · simp at hok
    · rw [Except.ok.injEq] at hok
      exact ⟨hok.symm, hok ▸ crlfOnly_toCRLF _⟩

theorem crlf_global_rewrite_witness :
    hasCRLF ['a', '\r', '\n', 'b', '\n', 'c'] = true
    ∧ replaceInFile ['a', '\r', '\n', 'b', '\n', 'c'] ['c'] ['d'] =
        Except.ok ['a', '\r', '\n', 'b', '\r', '\n', 'd']
    ∧ (['a', '\r', '\n', 'b', '\r', '\n', 'd'] =
        toCRLF (replaceFirst (normalizeEol ['a', '\r', '\n', 'b', '\n', 'c'])
          (normalizeEol ['c']) (normalizeEol ['d']))
      ∧ crlfOnly ['a', '\r', '\n', 'b', '\r', '\n', 'd'] = true) :=
  ⟨by decide, by rfl,
   crlf_global_rewrite ['a', '\r', '\n', 'b', '\n', 'c'] ['c'] ['d']
     ['a', '\r', '\n', 'b', '\r', '\n', 'd'] (by decide) (by rfl)⟩

/-! ## Path-guard lemmas -/

theorem splitSlash_no_slash (cs : List Char) :
    ∀ s ∈ splitSlash cs, ¬ ('/' ∈ s) := by
  induction cs with
  | nil => simp [splitSlash]
  | cons c rest ih =>
    intro s hs
    rw [splitSlash] at hs
    by_cases hc : c = '/'
    · rw [if_pos hc] at hs
      rcases List.mem_cons.mp hs with hs | hs
      · simp [hs]
      · exact ih s hs
    · rw [if_neg hc] at hs
      cases hmm : splitSlash rest with
      | nil => rw [hmm] at hs; simp at hs; simp [hs, Ne.symm hc]
      | cons s0 ss =>
        rw [hmm] at hs
        rcases List.mem_cons.mp hs with hs | hs
        · subst hs
          intro hmem
          rcases List.mem_cons.mp hmem with hmem | hmem
          · exact hc hmem.symm
          · exact ih s0 (hmm ▸ List.mem_cons_self _ _) hmem
        · exact ih s (hmm ▸ List.mem_cons_of_mem _ hs)

theorem goodSeg_iff (s : Seg) :
    goodSeg s = true ↔
      s ≠ [] ∧ s ≠ ['.'] ∧ s ≠ ['.', '.'] ∧ ¬ ('/' ∈ s) := by
  simp [goodSeg]

theorem normGo_good (l : List Seg) (acc : List Seg)
    (hacc : ∀ s ∈ acc, goodSeg s = true)
    (hl : ∀ s ∈ l, ¬ ('/' ∈ s)) :
    ∀ s ∈ normGo acc l, goodSeg s = true := by
  induction l generalizing acc with
  | nil => simpa [normGo] using hacc
  | cons s0 rest ih =>
    rw [normGo]
    by_cases h1 : s0 = [] ∨ s0 = ['.']
    · rw [if_pos h1]
      exact ih acc hacc (fun s hs => hl s (List.mem_cons_of_mem _ hs))
    · rw [if_neg h1]
      by_cases h2 : s0 = ['.', '.']
      · rw [if_pos h2]
        refine ih acc.dropLast
          (fun s hs => hacc s (List.dropLast_subset _ hs))
          (fun s hs => hl s (List.mem_cons_of_mem _ hs))
      · rw [if_neg h2]
        refine ih (acc ++ [s0]) ?_ (fun s hs => hl s (List.mem_cons_of_mem _ hs))
        intro s hs
        rcases List.mem_append.mp hs with hs | hs
        · exact hacc s hs
        · have hs0 : s = s0 := by simpa using hs
          subst hs0
          rw [goodSeg_iff]
          push_neg at h1
          exact ⟨h1.1, h1.2, h2, hl s (List.mem_cons_self _ _)⟩

theorem resolveP_good (root : List Seg) (cand : List Char)
    (hroot : rootOK root = true) :
    ∀ s ∈ resolveP root cand, goodSeg s = true := by
  have hrootg : ∀ s ∈ root, goodSeg s = true := by
    intro s hs
    exact List.all_eq_true.mp hroot s hs
  rw [resolveP]
  by_cases habs : isAbsStr cand = true
  · rw [if_pos habs]
    exact normGo_good _ [] (by simp) (splitSlash_no_slash cand)
  · rw [if_neg habs]
    refine normGo_good _ [] (by simp) ?_
    intro s hs
    rcases List.mem_append.mp hs with hs | hs
    · exact ((goodSeg_iff s).mp (hrootg s hs)).2.2.2
    · exact splitSlash_no_slash cand s hs

theorem cpl_append (l m : List Seg) : cpl l (l ++ m) = l.length := by
  induction l with
  | nil => simp [cpl]
  | cons a as_ ih => simp [cpl, ih]

theorem cpl_lt_of_no_ext (f t : List Seg) (h : ∀ m, t ≠ f ++ m) :
    cpl f t < f.length := by
  induction f generalizing t with
  | nil => exact absurd rfl (h t)
  | cons a as_ ih =>
    cases t with
    | nil => simp [cpl]
    | cons b bs =>
      by_cases hab : a = b
      · subst hab
        rw [cpl, if_pos rfl]
        have : ∀ m, bs ≠ as_ ++ m := by
          intro m hm
          exact h m (by rw [hm]; rfl)
        have := ih bs this
        simpa [Nat.succ_lt_succ_iff] using this
      · rw [cpl, if_neg hab]
        simp

theorem relSegs_self (f : List Seg) : relSegs f f = [] := by
  have hc : cpl f f = f.length := by
    have := cpl_append f []
    simpa using this
  simp [relSegs, hc]

theorem relSegs_desc (f : List Seg) (s : Seg) (rest : List Seg) :
    relSegs f (f ++ s :: rest) = s :: rest := by
  simp [relSegs, cpl_append, List.drop_left]

theorem relSegs_escape (f t : List Seg) (h : ∀ m, t ≠ f ++ m) :
    ∃ l2, relSegs f t = ['.', '.'] :: l2 := by
  have hlt := cpl_lt_of_no_ext f t h
  rw [relSegs]
  obtain ⟨k, hk⟩ : ∃ k, f.length - cpl f t = k + 1 :=
    ⟨f.length - cpl f t - 1, by omega⟩
  rw [hk, List.replicate_succ]
  exact ⟨_, rfl⟩

theorem joinSegs_ne_nil (s : Seg) (r : List Seg) (hs : s ≠ []) :
    joinSegs (s :: r) ≠ [] := by
  cases r with
  | nil => simpa [joinSegs] using hs
  | cons s2 r2 => simp [joinSegs]

theorem startsList_dotdot_join (s : Seg) (r : List Seg) (hs : s ≠ []) :
    startsList ['.', '.'] (joinSegs (s :: r)) = startsList ['.', '.'] s := by
  cases r with
  | nil => rfl
  | cons s2 r2 =>
    cases s with
    | nil => exact absurd rfl hs
    | cons c1 s' =>
      cases s' with
      | nil => simp [joinSegs, startsList]
      | cons c2 s'' => simp [joinSegs, startsList]

theorem startsList_dotdot_dotdot (r : List Seg) :
    startsList ['.', '.'] (joinSegs (['.', '.'] :: r)) = true := by
  cases r with
  | nil => rfl
  | cons s2 r2 => simp [joinSegs, startsList]

theorem isAbsStr_join (s : Seg) (r : List Seg) (hs : s ≠ [])
    (hslash : ¬ ('/' ∈ s)) : isAbsStr (joinSegs (s :: r)) = false := by
  cases s with
  | nil => exact absurd rfl hs
  | cons c s' =>
    have hc : c ≠ '/' := fun h => hslash (h ▸ List.mem_cons_self _ _)
    cases r with
    | nil => simpa [joinSegs, isAbsStr] using hc
    | cons s2 r2 => simpa [joinSegs, isAbsStr] using hc

theorem validatePath_cases (root : List Seg) (cand : List Char) :
    validatePath root cand = Except.ok (resolveP root cand) ∨
    validatePath root cand =
      Except.error "Security Violation: Access denied" := by
  simp only [validatePath]
  split
  · exact Or.inl rfl
  · exact Or.inr rfl

theorem validatePath_ok_iff (root : List Seg) (cand : List Char)
    (hroot : rootOK root = true) :
    validatePath root cand = Except.ok (resolveP root cand) ↔
      (resolveP root cand = root ∨
        ∃ s rest, resolveP root cand = root ++ s :: rest ∧
          startsList ['.', '.'] s = false) := by
  have hgood := resolveP_good root cand hroot
  by_cases hp : ∃ m, resolveP root cand = root ++ m
  · obtain ⟨m, hm⟩ := hp
    cases m with
    | nil =>
      rw [List.append_nil] at hm
      have hrel : relSegs root (resolveP root cand) = [] := by
        rw [hm]; exact relSegs_self root
      have hok : validatePath root cand = Except.ok (resolveP root cand) := by
        simp only [validatePath]
        rw [hrel]
        simp [joinSegs]
      exact ⟨fun _ => Or.inl hm, fun _ => hok⟩
    | cons s rest =>
      have hne : resolveP root cand ≠ root := by
        rw [hm]
        intro hh
        have hl := congrArg List.length hh
        simp at hl
      have hsmem : s ∈ resolveP root cand := by
        rw [hm]; exact List.mem_append_right _ (List.mem_cons_self _ _)
      obtain ⟨hs_ne, -, -, hs_slash⟩ := (goodSeg_iff s).mp (hgood s hsmem)
      have hrel : relSegs root (resolveP root cand) = s :: rest := by
        rw [hm]; exact relSegs_desc root s rest
      have hjoin := joinSegs_ne_nil s rest hs_ne
      have hje : (joinSegs (s :: rest)).isEmpty = false := by
        cases hj : joinSegs (s :: rest) with
        | nil => exact absurd hj hjoin
        | cons a l => rfl
      have hstart := startsList_dotdot_join s rest hs_ne
      have habs := isAbsStr_join s rest hs_ne hs_slash
      by_cases hss : startsList ['.', '.'] s = true
      · have herr : validatePath root cand =
            Except.error "Security Violation: Access denied" := by
          simp only [validatePath]
          rw [hrel, hstart, hss, habs, hje]
          simp
        constructor
        · intro hok
          rw [herr] at hok
          exact absurd hok (by simp)
        · rintro (hroot_eq | ⟨s', rest', hm', hs'⟩)
          · exact absurd hroot_eq hne
          · rw [hm] at hm'
            have h2 := List.append_cancel_left hm'
            have h3 : s = s' := by injection h2
            rw [← h3, hss] at hs'
            exact Bool.noConfusion hs'
      · have hssf : startsList ['.', '.'] s = false := by
          simpa using hss
        have hok : validatePath root cand = Except.ok (resolveP root cand) := by
          simp only [validatePath]
          rw [hrel, hstart, hssf, habs, hje]
          simp
        exact ⟨fun _ => Or.inr ⟨s, rest, hm, hssf⟩, fun _ => hok⟩
  · push_neg at hp
    obtain ⟨l2, hl2⟩ := relSegs_escape root (resolveP root cand) hp
    have herr : validatePath root cand =
        Except.error "Security Violation: Access denied" := by
      simp only [validatePath]
      rw [hl2]
      have h1 := startsList_dotdot_dotdot l2
      have h2 := joinSegs_ne_nil ['.', '.'] l2 (by simp)
      have hje : (joinSegs (['.', '.'] :: l2)).isEmpty = false := by
        cases hj : joinSegs (['.', '.'] :: l2) with
        | nil => exact absurd hj h2
        | cons a l => rfl
      rw [h1, hje]
      simp
    constructor
    · intro hok
      rw [herr] at hok
      exact absurd hok (by simp)
    · rintro (heq | ⟨s, rest, hm, -⟩)
      · exact absurd (by rw [List.append_nil]; exact heq) (hp [])
      · exact absurd hm (hp (s :: rest))

/-! ## Claim C1: path containment -/

/-- C1 counterexample: with root `/ws` the candidate `..b` absolutizes to
`/ws/..b`, a strict descendant of the root, yet `validatePath` rejects it:
the relative path is the single segment `..b`, and the guard tests
`relative.startsWith('..')` on *characters*, not on a parent-directory
segment. -/
theorem path_claim_counterexample :
    resolveP [['w', 's']] ['.', '.', 'b'] = [['w', 's']] ++ [['.', '.', 'b']]
    ∧ [['w', 's']] ++ [['.', '.', 'b']] ≠ [['w', 's']]
    ∧ rootOK [['w', 's']] = true
    ∧ vOk (validatePath [['w', 's']] ['.', '.', 'b']) = false :=
  ⟨by rfl, by decide, by decide, by decide⟩

/-- C1 amended: for every normalized root and candidate, `validatePath`
succeeds — returning the absolutized path — iff that absolutized path
equals the root, or is a strict descendant of the root whose first segment
below the root does not begin with the two characters `..`; every other
candidate fails with the containment error.  (The claim as stated omits
the first-segment proviso: a descendant such as `/ws/..b` is rejected.) -/
theorem path_containment_amended (root : List Seg) (cand : List Char)
    (hroot : rootOK root = true) :
    (validatePath root cand = Except.ok (resolveP root cand) ↔
      (resolveP root cand = root ∨
        ∃ s rest, resolveP root cand = root ++ s :: rest ∧
          startsList ['.', '.'] s = false))
    ∧ (¬ (resolveP root cand = root ∨
        ∃ s rest, resolveP root cand = root ++ s :: rest ∧
          startsList ['.', '.'] s = false) →
      validatePath root cand =
        Except.error "Security Violation: Access denied") := by
  refine ⟨validatePath_ok_iff root cand hroot, fun hn => ?_⟩
  rcases validatePath_cases root cand with h | h
  · exact absurd ((validatePath_ok_iff root cand hroot).mp h) hn
  · exact h

theorem path_containment_amended_witness :
    rootOK [['w', 's']] = true
    ∧ (validatePath [['w', 's']] ['a', '/', 'b'] =
        Except.ok (resolveP [['w', 's']] ['a', '/', 'b']) ↔
      (resolveP [['w', 's']] ['a', '/', 'b'] = [['w', 's']] ∨
        ∃ s rest, resolveP [['w', 's']] ['a', '/', 'b'] =
            [['w', 's']] ++ s :: rest ∧
          startsList ['.', '.'] s = false)) :=
  ⟨by decide, (path_containment_amended [['w', 's']] ['a', '/', 'b']
    (by decide)).1⟩

/-! ## Strict-transform lemmas -/

theorem plKeys_sanitizeProps : ∀ pl : PropList,
    plKeys (sanitizeProps pl) = plKeys pl
  | .nil => rfl
  | .cons k v rest => by
    simp [sanitizeProps, plKeys, plKeys_sanitizeProps rest]

mutual
theorem fixOpt_sanitize (s : JSchema) : fixOpt (sanitize s) = sanitize s := by
  rcases s with ⟨t, p, r, i, a, ap, e⟩
  by_cases ht : t = TypeF.tstr "object"
  · subst ht
    rw [show sanitize (.node (TypeF.tstr "object") p r i a ap e) =
        .node (TypeF.tstr "object") (sanitizeOptProps p)
          (Option.some (keysOf p)) i a (Option.some false)
          (e.filter (fun k => ¬ BANNED.contains k)) from by
      simp [sanitize]]
    cases p with
    | none =>
      rw [show sanitizeOptProps OptProps.none = OptProps.none from rfl]
      rw [fixOpt]
      rw [if_neg (by simp [isSomeProps]), if_neg (by simp)]
    | some pl =>
      rw [show sanitizeOptProps (OptProps.some pl) =
          OptProps.some (sanitizeProps pl) from rfl]
      rw [fixOpt]
      rw [if_pos ⟨rfl, by simp [isSomeProps]⟩]
      rw [show fixOptProps ((Option.some (keysOf (OptProps.some pl))).getD [])
            (OptProps.some (sanitizeProps pl)) =
          OptProps.some (fixProps (plKeys pl) (sanitizeProps pl)) from by
        simp [fixOptProps, keysOf]]
      rw [fixProps_sanitizeProps (plKeys pl) pl (fun k hk => hk)]
      rw [show keysOf (OptProps.some (sanitizeProps pl)) =
          plKeys (sanitizeProps pl) from rfl]
      rw [plKeys_sanitizeProps pl]
      rw [show keysOf (OptProps.some pl) = plKeys pl from rfl]
  · by_cases ha : t = TypeF.tstr "array"
    · subst ha
      rw [show sanitize (.node (TypeF.tstr "array") p r i a ap e) =
          .node (TypeF.tstr "array") p r (sanitizeItems i) a ap
            (e.filter (fun k => ¬ BANNED.contains k)) from by
        simp [sanitize]]
      cases i with
      | none =>
        rw [show sanitizeItems OptSchema.none = OptSchema.none from rfl]
        rw [fixOpt]
        rw [if_neg (by simp), if_neg (by simp [isSomeSchema])]
      | some x =>
        rw [show sanitizeItems (OptSchema.some x) =
            OptSchema.some (sanitize x) from rfl]
        rw [fixOpt]
        rw [if_neg (by simp), if_pos ⟨rfl, by simp [isSomeSchema]⟩]
        rw [show fixItems (OptSchema.some (sanitize x)) =
            OptSchema.some (fixOpt (sanitize x)) from by simp [fixItems]]
        rw [fixOpt_sanitize x]
    · by_cases han : isSomeSchemas a = true
      · rw [show sanitize (.node t p r i a ap e) =
            .node t p r i (sanitizeAnyOf a) ap
              (e.filter (fun k => ¬ BANNED.contains k)) from by
          simp [sanitize, ht, ha, han]]
        rw [fixOpt]
        rw [if_neg (by simp [ht]), if_neg (by simp [ha])]
      · rw [show sanitize (.node t p r i a ap e) =
            .node t p r i a ap
              (e.filter (fun k => ¬ BANNED.contains k)) from by
          simp [sanitize, ht, ha, han]]
        rw [fixOpt]
        rw [if_neg (by simp [ht]), if_neg (by simp [ha])]
theorem fixProps_sanitizeProps (ex : List String) (pl : PropList)
    (hex : ∀ k ∈ plKeys pl, k ∈ ex) :
    fixProps ex (sanitizeProps pl) = sanitizeProps pl := by
  match pl with
  | .nil => simp [sanitizeProps, fixProps]
  | .cons k v rest =>
    have hk : k ∈ ex := hex k (by simp [plKeys])
    rw [show sanitizeProps (PropList.cons k v rest) =
        PropList.cons k (sanitize v) (sanitizeProps rest) from rfl]
    rw [fixProps]
    rw [if_pos hk]
    rw [fixOpt_sanitize v]
    rw [fixProps_sanitizeProps ex rest
      (fun k2 h2 => hex k2 (by simp [plKeys, h2]))]
end

theorem filter_self_idem {α : Type} (p : α → Bool) (l : List α) :
    (l.filter p).filter p = l.filter p := by
  rw [List.filter_filter]
  congr 1
  funext x
  exact Bool.and_self _

theorem filter_comm_swap {α : Type} (p q : α → Bool) (l : List α) :
    (l.filter q).filter p = (l.filter p).filter q := by
  rw [List.filter_filter, List.filter_filter]
  congr 1
  funext x
  exact Bool.and_comm _ _

mutual
theorem sanitize_idem (s : JSchema) : sanitize (sanitize s) = sanitize s := by
  rcases s with ⟨t, p, r, i, a, ap, e⟩
  by_cases ht : t = TypeF.tstr "object"
  · subst ht
    rw [show sanitize (.node (TypeF.tstr "object") p r i a ap e) =
        .node (TypeF.tstr "object") (sanitizeOptProps p)
          (Option.some (keysOf p)) i a (Option.some false)
          (e.filter (fun k => ¬ BANNED.contains k)) from by
      simp [sanitize]]
    rw [show sanitize (.node (TypeF.tstr "object") (sanitizeOptProps p)
          (Option.some (keysOf p)) i a (Option.some false)
          (e.filter (fun k => ¬ BANNED.contains k))) =
        .node (TypeF.tstr "object") (sanitizeOptProps (sanitizeOptProps p))
          (Option.some (keysOf (sanitizeOptProps p))) i a (Option.some false)
          ((e.filter (fun k => ¬ BANNED.contains k)).filter
            (fun k => ¬ BANNED.contains k)) from by
      simp [sanitize]]
    rw [filter_self_idem]
    cases p with
    | none => rfl
    | some pl =>
      rw [show sanitizeOptProps (OptProps.some pl) =
          OptProps.some (sanitizeProps pl) from rfl]
      rw [show sanitizeOptProps (OptProps.some (sanitizeProps pl)) =
          OptProps.some (sanitizeProps (sanitizeProps pl)) from rfl]
      rw [sanitizeProps_idem pl]
      rw [show keysOf (OptProps.some (sanitizeProps pl)) =
          plKeys (sanitizeProps pl) from rfl]
      rw [plKeys_sanitizeProps pl]
      rw [show keysOf (OptProps.some pl) = plKeys pl from rfl]
  · by_cases ha : t = TypeF.tstr "array"
    · subst ha
      rw [show sanitize (.node (TypeF.tstr "array") p r i a ap e) =
          .node (TypeF.tstr "array") p r (sanitizeItems i) a ap
            (e.filter (fun k => ¬ BANNED.contains k)) from by
        simp [sanitize]]
      rw [show sanitize (.node (TypeF.tstr "array") p r (sanitizeItems i) a ap
            (e.filter (fun k => ¬ BANNED.contains k))) =
          .node (TypeF.tstr "array") p r (sanitizeItems (sanitizeItems i)) a ap
            ((e.filter (fun k => ¬ BANNED.contains k)).filter
              (fun k => ¬ BANNED.contains k)) from by
        simp [sanitize]]
      rw [filter_self_idem]
      cases i with
      | none => rfl
      | some x =>
        rw [show sanitizeItems (OptSchema.some x) =
            OptSchema.some (sanitize x) from rfl]
        rw [show sanitizeItems (OptSchema.some (sanitize x)) =
            OptSchema.some (sanitize (sanitize x)) from rfl]
        rw [sanitize_idem x]
    · by_cases han : isSomeSchemas a = true
      · rw [show sanitize (.node t p r i a ap e) =
            .node t p r i (sanitizeAnyOf a) ap
              (e.filter (fun k => ¬ BANNED.contains k)) from by
          simp [sanitize, ht, ha, han]]
        cases a with
        | none => simp [isSomeSchemas] at han
        | some l =>
          rw [show sanitizeAnyOf (OptSchemas.some l) =
              OptSchemas.some (sanitizeList l) from rfl]
          rw [show sanitize (.node t p r i
                (OptSchemas.some (sanitizeList l)) ap
                (e.filter (fun k => ¬ BANNED.contains k))) =
              .node t p r i (OptSchemas.some (sanitizeList (sanitizeList l)))
                ap ((e.filter (fun k => ¬ BANNED.contains k)).filter
                  (fun k => ¬ BANNED.contains k)) from by
            simp [sanitize, ht, ha, sanitizeAnyOf, isSomeSchemas]]
          rw [filter_self_idem, sanitizeList_idem l]
      · rw [show sanitize (.node t p r i a ap e) =
            .node t p r i a ap
              (e.filter (fun k => ¬ BANNED.contains k)) from by
          simp [sanitize, ht, ha, han]]
        rw [show sanitize (.node t p r i a ap
              (e.filter (fun k => ¬ BANNED.contains k))) =
            .node t p r i a ap
              ((e.filter (fun k => ¬ BANNED.contains k)).filter
                (fun k => ¬ BANNED.contains k)) from by
          simp [sanitize, ht, ha, han]]
        rw [filter_self_idem]
theorem sanitizeProps_idem (pl : PropList) :
    sanitizeProps (sanitizeProps pl) = sanitizeProps pl := by
  match pl with
  | .nil => rfl
  | .cons k v rest =>
    rw [show sanitizeProps (PropList.cons k v rest) =
        PropList.cons k (sanitize v) (sanitizeProps rest) from rfl]
    rw [show sanitizeProps (PropList.cons k (sanitize v)
          (sanitizeProps rest)) =
        PropList.cons k (sanitize (sanitize v))
          (sanitizeProps (sanitizeProps rest)) from rfl]
    rw [sanitize_idem v, sanitizeProps_idem rest]
theorem sanitizeList_idem (sl : SchemaList) :
    sanitizeList (sanitizeList sl) = sanitizeList sl := by
  match sl with
  | .nil => rfl
  | .cons x rest =>
    rw [show sanitizeList (SchemaList.cons x rest) =
        SchemaList.cons (sanitize x) (sanitizeList rest) from rfl]
    rw [show sanitizeList (SchemaList.cons (sanitize x)
          (sanitizeList rest)) =
        SchemaList.cons (sanitize (sanitize x))
          (sanitizeList (sanitizeList rest)) from rfl]
    rw [sanitize_idem x, sanitizeList_idem rest]
end

theorem cleanupTop_sanitize_cleanupTop (s : JSchema) :
    cleanupTop (sanitize (cleanupTop s)) = sanitize (cleanupTop s) := by
  rcases s with ⟨t, p, r, i, a, ap, e⟩
  rw [show cleanupTop (.node t p r i a ap e) =
      .node t p r i a ap (e.filter (fun k => ¬ TOPJUNK.contains k)) from rfl]
  have hE : ((e.filter (fun k => ¬ TOPJUNK.contains k)).filter
        (fun k => ¬ BANNED.contains k)).filter
        (fun k => ¬ TOPJUNK.contains k) =
      (e.filter (fun k => ¬ TOPJUNK.contains k)).filter
        (fun k => ¬ BANNED.contains k) := by
    rw [filter_comm_swap, filter_self_idem]
  by_cases ht : t = TypeF.tstr "object"
  · subst ht
    rw [show sanitize (.node (TypeF.tstr "object") p r i a ap
          (e.filter (fun k => ¬ TOPJUNK.contains k))) =
        .node (TypeF.tstr "object") (sanitizeOptProps p)
          (Option.some (keysOf p)) i a (Option.some false)
          ((e.filter (fun k => ¬ TOPJUNK.contains k)).filter
            (fun k => ¬ BANNED.contains k)) from by
      simp [sanitize]]
    rw [show ∀ p2 r2 ap2 e2, cleanupTop
          (.node (TypeF.tstr "object") p2 r2 i a ap2 e2) =
        .node (TypeF.tstr "object") p2 r2 i a ap2
          (e2.filter (fun k => ¬ TOPJUNK.contains k)) from
      fun p2 r2 ap2 e2 => rfl]
    rw [hE]
  · by_cases ha : t = TypeF.tstr "array"
    · subst ha
      rw [show sanitize (.node (TypeF.tstr "array") p r i a ap
            (e.filter (fun k => ¬ TOPJUNK.contains k))) =
          .node (TypeF.tstr "array") p r (sanitizeItems i) a ap
            ((e.filter (fun k => ¬ TOPJUNK.contains k)).filter
              (fun k => ¬ BANNED.contains k)) from by
        simp [sanitize]]
      rw [show ∀ i2 e2, cleanupTop (.node (TypeF.tstr "array") p r i2 a ap e2) =
          .node (TypeF.tstr "array") p r i2 a ap
            (e2.filter (fun k => ¬ TOPJUNK.contains k)) from
        fun i2 e2 => rfl]
      rw [hE]
    · by_cases han : isSomeSchemas a = true
      · rw [show sanitize (.node t p r i a ap
              (e.filter (fun k => ¬ TOPJUNK.contains k))) =
            .node t p r i (sanitizeAnyOf a) ap
              ((e.filter (fun k => ¬ TOPJUNK.contains k)).filter
                (fun k => ¬ BANNED.contains k)) from by
          simp [sanitize, ht, ha, han]]
        rw [show ∀ a2 e2, cleanupTop (.node t p r i a2 ap e2) =
            .node t p r i a2 ap
              (e2.filter (fun k => ¬ TOPJUNK.contains k)) from
          fun a2 e2 => rfl]
        rw [hE]
      · rw [show sanitize (.node t p r i a ap
              (e.filter (fun k => ¬ TOPJUNK.contains k))) =
            .node t p r i a ap
              ((e.filter (fun k => ¬ TOPJUNK.contains k)).filter
                (fun k => ¬ BANNED.contains k)) from by
          simp [sanitize, ht, ha, han]]
        rw [show ∀ e2, cleanupTop (.node t p r i a ap e2) =
            .node t p r i a ap
              (e2.filter (fun k => ¬ TOPJUNK.contains k)) from
          fun e2 => rfl]
        rw [hE]

/-! ## Claim C8: the strict transform is idempotent -/

/-- C8: `toStrict` is idempotent — applying the transform to its own
output changes nothing.  The widening pass acts as the identity on
`sanitize` output (the first pass has already overwritten every reachable
`required`), `sanitize` is idempotent, and the top-level cleanup finds
nothing left to delete on a second run. -/
theorem toStrict_idempotent (s : JSchema) :
    toStrict (toStrict s) = toStrict s := by
  have h1 : toStrict s = sanitize (cleanupTop s) := by
    rw [toStrict, fixOpt_sanitize]
  rw [toStrict, h1, cleanupTop_sanitize_cleanupTop, sanitize_idem,
    fixOpt_sanitize]

/-! ## Claim C2: null-widening of optional properties -/

/-- Accessor: the `type` field of a schema node. -/
def typeOf : JSchema → TypeF
  | .node t _ _ _ _ _ _ => t

/-- Accessor: the `required` field of a schema node. -/
def requiredOf : JSchema → Option (List String)
  | .node _ _ r _ _ _ _ => r

/-- Accessor: the `properties` field of a schema node. -/
def propsOf : JSchema → OptProps
  | .node _ p _ _ _ _ _ => p

/-- Look a key up in a properties object. -/
def plFind : PropList → String → Option JSchema
  | .nil, _ => Option.none
  | .cons k v rest, q => if k = q then Option.some v else plFind rest q

/-- The `type` of the named property of an object schema. -/
def propTypeOf (s : JSchema) (k : String) : Option TypeF :=
  match propsOf s with
  | .none => Option.none
  | .some pl => (plFind pl k).map typeOf

/-- A `{ type: 'string' }` property node. -/
def strStringNode : JSchema :=
  .node (.tstr "string") .none Option.none .none .none Option.none []

/-- The JSON Schema `zodToJsonSchema` produces for
`z.object({ a: z.string().optional() })`: one declared property, `a`,
absent from `required` because it is optional (N = 1, M = 1). -/
def exOptionalSchema : JSchema :=
  .node (.tstr "object")
    (.some (.cons "a" strStringNode .nil))
    Option.none .none .none Option.none ["$schema"]

/-- C2, evaluated at the failing input: on the one-optional-property schema
the transform does set `required := ["a"]` (so `required.length = N`), but
the property's type stays `"string"` instead of the claimed
`["string", "null"]` — `sanitize` overwrites `required` with the full key
set *before* `fixOptionality` reads it, so the recorded original
required-set is already the full set and the widening branch never
executes; zero of the M = 1 previously-optional properties admit null. -/
theorem strict_widening_never_fires :
    toStrict exOptionalSchema =
      JSchema.node (TypeF.tstr "object")
        (OptProps.some (PropList.cons "a" strStringNode PropList.nil))
        (Option.some ["a"]) OptSchema.none OptSchemas.none
        (Option.some false) []
    ∧ requiredOf (toStrict exOptionalSchema) = Option.some ["a"]
    ∧ propTypeOf (toStrict exOptionalSchema) "a" =
        Option.some (TypeF.tstr "string")
    ∧ TypeF.tstr "string" ≠ TypeF.tlist ["string", "null"] := by
  have h : toStrict exOptionalSchema =
      sanitize (cleanupTop exOptionalSchema) := by
    rw [toStrict, fixOpt_sanitize]
  refine ⟨?_, ?_, ?_, by simp⟩
  · rw [h]
    rfl
  · rw [h]
    rfl
  · rw [h]
    rfl
